import Mathlib

/-!
Shallow embedding of the blockchain backend (`src/backend/main.go`) of
mesametamaarkhan/MyFirstBlockchain, with theorems settling the frozen claims
about its specification.

The Go code's hash is `sha256hex` (crypto/sha256 + encoding/hex); it is
implemented concretely below over `Nat` bytes.  The ledger functions
(`computeMerkleRoot`, `computeHash`, `mineBlock`, `addBlock`, the HTTP
handlers) are embedded parametrically in the hash function `H`, and
instantiated with `sha256hex` where a claim depends on the concrete hash.
Side effects are made explicit: the wall clock of `mineBlock` becomes a
predicate `exceeded : Nat -> Bool` (iteration k observed `time.Since(start) >
stopAfterMs` ?), `time.Now().Unix()` becomes an explicit timestamp argument,
the unbounded `for` loop becomes fuel (`none` = the program has not returned),
and a Go `panic` becomes an explicit outcome.
-/

set_option maxHeartbeats 1000000
set_option maxRecDepth 8000

namespace MFB

/-! ### SHA-256 over `Nat` bytes (Go's `crypto/sha256` + lowercase hex) -/

/-- `2 ^ 32`, the modulus of 32-bit words. -/
def M32 : Nat := 4294967296

/-- Rotate a 32-bit word right by `k` (arithmetic form, for `x < 2 ^ 32`). -/
def rotr (k x : Nat) : Nat := x / 2 ^ k + x % 2 ^ k * 2 ^ (32 - k)

/-- Logical shift right by `k`. -/
def shr (k x : Nat) : Nat := x / 2 ^ k

/-- 32-bit complement (for `x < 2 ^ 32`). -/
def bnot32 (x : Nat) : Nat := M32 - 1 - x

/-- SHA-256 `Ch`. -/
def ch (x y z : Nat) : Nat := (x &&& y) ^^^ (bnot32 x &&& z)

/-- SHA-256 `Maj`. -/
def maj (x y z : Nat) : Nat := (x &&& y) ^^^ (x &&& z) ^^^ (y &&& z)

/-- SHA-256 big Sigma-0. -/
def bsig0 (x : Nat) : Nat := rotr 2 x ^^^ rotr 13 x ^^^ rotr 22 x

/-- SHA-256 big Sigma-1. -/
def bsig1 (x : Nat) : Nat := rotr 6 x ^^^ rotr 11 x ^^^ rotr 25 x

/-- SHA-256 small sigma-0. -/
def ssig0 (x : Nat) : Nat := rotr 7 x ^^^ rotr 18 x ^^^ shr 3 x

/-- SHA-256 small sigma-1. -/
def ssig1 (x : Nat) : Nat := rotr 17 x ^^^ rotr 19 x ^^^ shr 10 x

/-- The 64 SHA-256 round constants. -/
def sha256K : List Nat :=
  [0x428A2F98, 0x71374491, 0xB5C0FBCF, 0xE9B5DBA5,
   0x3956C25B, 0x59F111F1, 0x923F82A4, 0xAB1C5ED5,
   0xD807AA98, 0x12835B01, 0x243185BE, 0x550C7DC3,
   0x72BE5D74, 0x80DEB1FE, 0x9BDC06A7, 0xC19BF174,
   0xE49B69C1, 0xEFBE4786, 0x0FC19DC6, 0x240CA1CC,
   0x2DE92C6F, 0x4A7484AA, 0x5CB0A9DC, 0x76F988DA,
   0x983E5152, 0xA831C66D, 0xB00327C8, 0xBF597FC7,
   0xC6E00BF3, 0xD5A79147, 0x06CA6351, 0x14292967,
   0x27B70A85, 0x2E1B2138, 0x4D2C6DFC, 0x53380D13,
   0x650A7354, 0x766A0ABB, 0x81C2C92E, 0x92722C85,
   0xA2BFE8A1, 0xA81A664B, 0xC24B8B70, 0xC76C51A3,
   0xD192E819, 0xD6990624, 0xF40E3585, 0x106AA070,
   0x19A4C116, 0x1E376C08, 0x2748774C, 0x34B0BCB5,
   0x391C0CB3, 0x4ED8AA4A, 0x5B9CCA4F, 0x682E6FF3,
   0x748F82EE, 0x78A5636F, 0x84C87814, 0x8CC70208,
   0x90BEFFFA, 0xA4506CEB, 0xBEF9A3F7, 0xC67178F2]

/-- The SHA-256 initial hash state. -/
def sha256Init : List Nat :=
  [0x6A09E667, 0xBB67AE85, 0x3C6EF372, 0xA54FF53A,
   0x510E527F, 0x9B05688C, 0x1F83D9AB, 0x5BE0CD19]

/-- `n`-byte big-endian rendering of `x`. -/
def beBytes : Nat → Nat → List Nat
  | 0, _ => []
  | n + 1, x => beBytes n (x / 256) ++ [x % 256]

/-- Group bytes into 32-bit big-endian words (dropping a trailing partial group). -/
def toWords : List Nat → List Nat
  | a :: b :: c :: d :: rest => (((a * 256 + b) * 256 + c) * 256 + d) :: toWords rest
  | _ => []

/-- SHA-256 padding: `0x80`, zeros to 56 mod 64, 8-byte big-endian bit length. -/
def padMsg (msg : List Nat) : List Nat :=
  msg ++ [128] ++ List.replicate ((119 - msg.length % 64) % 64) 0 ++ beBytes 8 (8 * msg.length)

/-- Message-schedule extension: `w` is the sliding window of the last 16 words,
oldest first; each step emits `W(i) = ssig1 W(i-2) + W(i-7) + ssig0 W(i-15) + W(i-16)`. -/
def schedWindow : Nat → List Nat → List Nat
  | 0, _ => []
  | n + 1, w =>
    let x := (ssig1 (w.getD 14 0) + w.getD 9 0 + ssig0 (w.getD 1 0) + w.getD 0 0) % M32
    x :: schedWindow n (w.drop 1 ++ [x])

/-- The 64-word message schedule of one 16-word block. -/
def msgSched (block : List Nat) : List Nat := block ++ schedWindow 48 block

/-- One SHA-256 compression round on the 8-word state. -/
def shaRound (st : List Nat) (k w : Nat) : List Nat :=
  match st with
  | [a, b, c, d, e, f, g, h] =>
    let t1 := (h + bsig1 e + ch e f g + k + w) % M32
    let t2 := (bsig0 a + maj a b c) % M32
    [(t1 + t2) % M32, a, b, c, (d + t1) % M32, e, f, g]
  | st => st

/-- Compress one 16-word block into the state. -/
def shaCompress (st : List Nat) (block : List Nat) : List Nat :=
  let st2 := (sha256K.zip (msgSched block)).foldl (fun s p => shaRound s p.1 p.2) st
  st.zipWith (fun x y => (x + y) % M32) st2

/-- Process a padded byte stream 64 bytes at a time.  Structural fuel recursion
so that the kernel can evaluate it; each step consumes 64 bytes, so fuel equal
to the byte count (see `shaBlocks`) never runs out. -/
def shaBlocksF : Nat → List Nat → List Nat → List Nat
  | 0, st, _ => st
  | fuel + 1, st, bytes =>
    if bytes = [] then st
    else shaBlocksF fuel (shaCompress st (toWords (bytes.take 64))) (bytes.drop 64)

/-- Process a padded byte stream 64 bytes at a time. -/
def shaBlocks (st : List Nat) (bytes : List Nat) : List Nat :=
  shaBlocksF bytes.length st bytes

/-- UTF-8 encoding of one scalar value (Go strings are UTF-8 byte sequences). -/
def charUtf8 (c : Char) : List Nat :=
  let n := c.toNat
  if n < 128 then [n]
  else if n < 2048 then [192 + n / 64, 128 + n % 64]
  else if n < 65536 then [224 + n / 4096, 128 + n / 64 % 64, 128 + n % 64]
  else [240 + n / 262144, 128 + n / 4096 % 64, 128 + n / 64 % 64, 128 + n % 64]

/-- The UTF-8 bytes of a string, as `Nat`s. -/
def utf8Bytes (s : String) : List Nat := s.data.foldr (fun c acc => charUtf8 c ++ acc) []

/-- Lowercase hex digit. -/
def hexDigit (n : Nat) : Char := if n < 10 then Char.ofNat (48 + n) else Char.ofNat (87 + n)

/-- Eight lowercase hex digits of a 32-bit word, most significant first. -/
def wordHex (w : Nat) : List Char :=
  [hexDigit (w / 16 ^ 7 % 16), hexDigit (w / 16 ^ 6 % 16), hexDigit (w / 16 ^ 5 % 16),
   hexDigit (w / 16 ^ 4 % 16), hexDigit (w / 16 ^ 3 % 16), hexDigit (w / 16 ^ 2 % 16),
   hexDigit (w / 16 % 16), hexDigit (w % 16)]

/-- Go's `sha256hex`: `hex.EncodeToString(sha256.Sum256([]byte(s)))`. -/
def sha256hex (s : String) : String :=
  String.mk ((shaBlocks sha256Init (padMsg (utf8Bytes s))).foldr (fun w acc => wordHex w ++ acc) [])

/-! ### The Block data model (`type Block struct`) -/

/-- `type Block struct` of `main.go`.  Go `int`/`int64` fields become `Int`. -/
structure Block where
  Index : Int
  Timestamp : Int
  Transactions : List String
  MerkleRoot : String
  PrevHash : String
  Hash : String
  Nonce : Int
  Difficulty : Int
deriving DecidableEq, Inhabited, Repr

/-- The in-memory state guarded by the mutex: `blockchain` and
`pendingTransactions` of `main.go`. -/
structure ChainState where
  blockchain : List Block
  pendingTransactions : List String
deriving DecidableEq, Repr

/-- `defaultDifficulty = 4` of `main.go`. -/
def defaultDifficulty : Int := 4

/-! ### Merkle root (`computeMerkleRoot`) -/

/-- One pass of the inner `for i := 0; i < len(layer); i += 2` loop of
`computeMerkleRoot`: combine adjacent pairs left-to-right with `sha256hex`;
when `i+1 == len(layer)` (lone last element) the last element is combined
with itself. -/
def pairStep (H : String → String) : List String → List String
  | [] => []
  | [x] => [H (x ++ x)]
  | x :: y :: rest => H (x ++ y) :: pairStep H rest

/-- The `for len(layer) > 1` loop of `computeMerkleRoot`.  Structural fuel
recursion so the kernel can evaluate it; each iteration strictly shrinks the
layer, so fuel equal to the initial layer length (as passed by
`computeMerkleRoot`) never runs out — see `merkleLoopF_congr`. -/
def merkleLoopF (H : String → String) : Nat → List String → List String
  | 0, layer => layer
  | fuel + 1, layer =>
    if layer.length > 1 then merkleLoopF H fuel (pairStep H layer) else layer

/-- `computeMerkleRoot` of `main.go`: empty input hashes the empty string;
otherwise hash the leaves in order and reduce the layer pairwise to one root. -/
def computeMerkleRoot (H : String → String) (txs : List String) : String :=
  if txs = [] then H ""
  else ((merkleLoopF H (txs.map H).length (txs.map H)).headD "")

/-! ### Block hash (`computeHash`) and proof of work (`mineBlock`) -/

/-- `computeHash` of `main.go`: the record string is
`Itoa(Index) + FormatInt(Timestamp,10) + PrevHash + MerkleRoot +
FormatInt(Nonce,10) + Itoa(Difficulty)` — the `Hash` and `Transactions`
fields are excluded. -/
def computeHash (H : String → String) (b : Block) : String :=
  H (toString b.Index ++ toString b.Timestamp ++ b.PrevHash ++ b.MerkleRoot ++
     toString b.Nonce ++ toString b.Difficulty)

/-- Go's `strings.Repeat(s, count)`: panics (`none`) on a negative count. -/
def stringsRepeat (s : String) (count : Int) : Option String :=
  if count < 0 then none else some (String.join (List.replicate count.toNat s))

/-- The `"0" * difficulty` pattern a mined hash must start with (`""` for a
negative difficulty, where `stringsRepeat` panics instead). -/
def zeroPref (d : Int) : String := (stringsRepeat "0" d).getD ""

/-- Go's `strings.HasPrefix(s, pre)`, rendered on the character list. -/
def hasPref (s pre : String) : Bool := pre.data.isPrefixOf s.data

/-- Result of one `mineBlock` call.  `timedOut` carries `stopAfterMs` and the
nonce value Go interpolates into its error (the counter after `nonce++`);
`panicked` is the `strings.Repeat` panic on a negative difficulty. -/
inductive MineOutcome where
  | mined (b : Block)
  | timedOut (stopAfterMs lastNonce : Int)
  | panicked (msg : String)
deriving DecidableEq, Repr

/-- The `for` loop of `mineBlock`: at iteration `k` the candidate nonce is `k`;
on a hash with the required pattern, return the block with `Nonce` and `Hash`
set; otherwise increment and — only when `stopAfterMs > 0` — time out if the
clock (`exceeded k` = "`time.Since(start)` observed past the bound at
iteration `k`") has exceeded the bound.  Fuel models the unbounded loop:
`none` means the call has not returned. -/
def mineLoopF (H : String → String) (b : Block) (pre : String) (stopAfterMs : Int)
    (exceeded : Nat → Bool) : Nat → Nat → Option MineOutcome
  | 0, _ => none
  | fuel + 1, k =>
    let cand := { b with Nonce := (k : Int) }
    let hsh := computeHash H cand
    if hasPref hsh pre then some (.mined { cand with Hash := hsh })
    else if 0 < stopAfterMs ∧ exceeded k = true then
      some (.timedOut stopAfterMs ((k : Int) + 1))
    else mineLoopF H b pre stopAfterMs exceeded fuel (k + 1)

/-- `mineBlock` of `main.go`. -/
def mineBlock (H : String → String) (b : Block) (stopAfterMs : Int)
    (exceeded : Nat → Bool) (fuel : Nat) : Option MineOutcome :=
  match stringsRepeat "0" b.Difficulty with
  | none => some (.panicked "strings: negative Repeat count")
  | some pre => mineLoopF H b pre stopAfterMs exceeded fuel 0

/-! ### Genesis (`createGenesisBlock`), commit (`addBlock`), handlers -/

/-- `createGenesisBlock` of `main.go`; `ts` is the observed
`time.Now().Unix()`.  The `err != nil` fallback branch is modelled verbatim
even though `mineBlock(gen, 0)` can never return an error. -/
def createGenesisBlock (H : String → String) (ts : Int) (exceeded : Nat → Bool)
    (fuel : Nat) : Option Block :=
  let gen0 : Block := { Index := 0, Timestamp := ts, Transactions := ["Genesis Block"],
                        MerkleRoot := "", PrevHash := "", Hash := "", Nonce := 0,
                        Difficulty := defaultDifficulty }
  let gen := { gen0 with MerkleRoot := computeMerkleRoot H gen0.Transactions }
  match mineBlock H gen 0 exceeded fuel with
  | some (.mined b) => some b
  | some (.timedOut _ _) => some { gen with Nonce := 0, Hash := computeHash H gen }
  | some (.panicked _) => none
  | none => none

/-- Result of `addBlock`: the returned block, the propagated mining error, or
a panic (from `strings.Repeat` inside `mineBlock`, or from
`blockchain[len(blockchain)-1]` on an empty chain; the deferred
`mutex.Unlock()` still runs, so the chain is returned unchanged). -/
inductive AddBlockRes where
  | ok (b : Block)
  | errTimeout (stopAfterMs lastNonce : Int)
  | panicked (msg : String)
deriving DecidableEq, Repr

/-- `addBlock` of `main.go`: build the header from the last block and the
given transactions, mine it with `stopAfterMs = 0`, and append on success.
Returns the result together with the (possibly extended) chain. -/
def addBlock (H : String → String) (exceeded : Nat → Bool) (fuel : Nat) (ts : Int)
    (chain : List Block) (transactions : List String) (difficulty : Int) :
    Option (AddBlockRes × List Block) :=
  match chain.getLast? with
  | none => some (.panicked "runtime error: index out of range", chain)
  | some prev =>
    let nb0 : Block := { Index := prev.Index + 1, Timestamp := ts,
                         Transactions := transactions, MerkleRoot := "",
                         PrevHash := prev.Hash, Hash := "", Nonce := 0,
                         Difficulty := difficulty }
    let nb := { nb0 with MerkleRoot := computeMerkleRoot H transactions }
    match mineBlock H nb 0 exceeded fuel with
    | none => none
    | some (.mined m) => some (.ok m, chain ++ [m])
    | some (.timedOut st n) => some (.errTimeout st n, chain)
    | some (.panicked msg) => some (.panicked msg, chain)

/-- Go's `unicode.IsSpace` (White_Space property). -/
def goIsSpace (c : Char) : Bool :=
  let n := c.toNat
  (9 ≤ n && n ≤ 13) || n == 32 || n == 133 || n == 160 || n == 0x1680 ||
  (0x2000 ≤ n && n ≤ 0x200A) || n == 0x2028 || n == 0x2029 || n == 0x202F ||
  n == 0x205F || n == 0x3000

/-- Go's `strings.TrimSpace`. -/
def goTrimSpace (s : String) : String :=
  String.mk (((s.data.dropWhile goIsSpace).reverse.dropWhile goIsSpace).reverse)

/-- Response of the `/tx` handler. -/
inductive AddTxResp where
  | badRequest
  | created (pending : List String)
deriving DecidableEq, Repr

/-- `handleAddTx` of `main.go` with a decoded body `{"data": data}`: reject
when `strings.TrimSpace(data) == ""`, else append the original (untrimmed)
`data` to the pending pool and echo the updated pool. -/
def handleAddTx (s : ChainState) (data : String) : AddTxResp × ChainState :=
  if goTrimSpace data = "" then (.badRequest, s)
  else
    (.created (s.pendingTransactions ++ [data]),
     { s with pendingTransactions := s.pendingTransactions ++ [data] })

/-- Response of the `/mine` handler: 400 on an empty pool, the mined block,
the 500 "mining failed" path (which restores the snapshot), or a panic
escaping the handler (the restore branch does not run). -/
inductive MineResp where
  | noPending
  | ok (b : Block)
  | failed (stopAfterMs lastNonce : Int)
  | panicked (msg : String)
deriving DecidableEq, Repr

/-- `handleMine` of `main.go` with a decoded body
`{"difficulty": difficulty, "timeout_ms": timeoutMs}`: snapshot and clear the
pool, call `addBlock(txs, difficulty)` — the parsed `timeoutMs` is never
passed on — and on error append the snapshot back onto the pool. -/
def handleMine (H : String → String) (exceeded : Nat → Bool) (fuel : Nat) (ts : Int)
    (s : ChainState) (difficulty timeoutMs : Int) : Option (MineResp × ChainState) :=
  if s.pendingTransactions = [] then some (.noPending, s)
  else
    let txs := s.pendingTransactions
    let s1 : ChainState := { s with pendingTransactions := [] }
    match addBlock H exceeded fuel ts s1.blockchain txs difficulty with
    | none => none
    | some (.ok b, bc) => some (.ok b, { s1 with blockchain := bc })
    | some (.errTimeout st n, bc) =>
      some (.failed st n,
            { blockchain := bc, pendingTransactions := s1.pendingTransactions ++ txs })
    | some (.panicked m, bc) => some (.panicked m, { s1 with blockchain := bc })

/-- The startup of `main`: create a genesis block and seed the in-memory
chain with it.  The Go program performs no file input or output whatsoever;
the `store` argument models the durable store of the spec's Persistence
Adapter as part of the external world, and is passed through untouched
because `main` never reads or writes it. -/
def mainStartup (H : String → String) (ts : Int) (exceeded : Nat → Bool) (fuel : Nat)
    (store : Option (List Block)) : Option (List Block × Option (List Block)) :=
  match createGenesisBlock H ts exceeded fuel with
  | none => none
  | some g => some ([g], store)

/-! ### Reachable states and the chain invariant -/

/-- States reachable by genesis bootstrap followed by any sequence of
completed submit and mine operations (requests are handled one at a time
under the mutex, so the interleaving-free sequential composition is the
concurrency model of `main.go`). -/
inductive Reach (H : String → String) : ChainState → Prop where
  | boot (ts : Int) (exceeded : Nat → Bool) (fuel : Nat) (g : Block) :
      createGenesisBlock H ts exceeded fuel = some g →
      Reach H { blockchain := [g], pendingTransactions := [] }
  | submit {s : ChainState} (data : String) (r : AddTxResp) (s' : ChainState) :
      Reach H s → handleAddTx s data = (r, s') → Reach H s'
  | mine {s : ChainState} (exceeded : Nat → Bool) (fuel : Nat) (ts : Int)
      (difficulty timeoutMs : Int) (r : MineResp) (s' : ChainState) :
      Reach H s → handleMine H exceeded fuel ts s difficulty timeoutMs = some (r, s') →
      Reach H s'

/-- Invariant 2 of the data model, between adjacent blocks. -/
def linked (a b : Block) : Prop := b.Index = a.Index + 1 ∧ b.PrevHash = a.Hash

/-- Invariants 3-5 of the data model, for one block. -/
def blockValid (H : String → String) (b : Block) : Prop :=
  b.Hash = computeHash H b ∧ 0 ≤ b.Difficulty ∧
  hasPref b.Hash (zeroPref b.Difficulty) = true ∧
  b.MerkleRoot = computeMerkleRoot H b.Transactions ∧
  (b.Index ≠ 0 → b.Transactions ≠ [])

/-- Invariants 1-5 of the data model for a (prefix of a) chain. -/
def chainInvariant (H : String → String) (bs : List Block) : Prop :=
  (∀ g ∈ bs.head?, g.Index = 0 ∧ g.PrevHash = "") ∧
  List.Chain' linked bs ∧
  (∀ b ∈ bs, blockValid H b)

/-! ### Concrete instances used by witnesses and counterexamples -/

/-- The value `mineLoopF` returns on success at nonce `n`: the input block
with `Nonce := n` and `Hash` set to the candidate hash. -/
def minedBlock (H : String → String) (b : Block) (n : Nat) : Block :=
  { b with Nonce := (n : Int), Hash := computeHash H { b with Nonce := (n : Int) } }

/-- A trivial hasher whose digests vacuously satisfy difficulty 4; used to
instantiate `H`-generic theorems on concretely evaluable inputs. -/
def trivHash : String → String := fun _ => "0000"

/-- The identity as a hasher, for concretely evaluable Merkle examples. -/
def idHash : String → String := fun s => s

/-- A hasher none of whose digests has a leading zero. -/
def hashX : String → String := fun _ => "x"

/-- A hasher selecting exactly the candidate record of `nonceOneBlock` at
nonce 1 (its record string is `"1011"`). -/
def selHash : String → String := fun s => if s = "1011" then "0h" else "hh"

/-- A clock that has always exceeded the bound. -/
def clockTrue : Nat → Bool := fun _ => true

/-- A clock that never exceeds the bound. -/
def clockFalse : Nat → Bool := fun _ => false

/-- An arbitrary pre-existing chain head; `handleMine` validates nothing
about it. -/
def junkGenesis : Block :=
  { Index := 0, Timestamp := 0, Transactions := [], MerkleRoot := "",
    PrevHash := "", Hash := "", Nonce := 0, Difficulty := 0 }

/-- The block `addBlock` mines from `["tx1"]` on top of `junkGenesis` at
timestamp 3 and difficulty 1 under SHA-256: nonce 0 fails, nonce 1 succeeds. -/
def minedTx1 : Block :=
  { Index := 1, Timestamp := 3, Transactions := ["tx1"],
    MerkleRoot := "709b55bd3da0f5a838125bd0ee20c5bfdd7caba173912d4281cae816b79a201b",
    PrevHash := "",
    Hash := "06cb5aee084257ff06d630f11921c72be231b4173ec791e90b3b9a98e6ee938d",
    Nonce := 1, Difficulty := 1 }

/-- The block `addBlock` mines from `["tx2"]` on top of `junkGenesis` at
timestamp 2 and difficulty 1 under SHA-256: nonce 0 fails, nonce 1 succeeds. -/
def minedTx2 : Block :=
  { Index := 1, Timestamp := 2, Transactions := ["tx2"],
    MerkleRoot := "27ca64c092a959c7edc525ed45e845b1de6a7590d173fd2fad9133c8a779a1e3",
    PrevHash := "",
    Hash := "0a9bef36e85952c6c13d54b58331f9496f45a2653d5111c097bfcba2a84c7fbd",
    Nonce := 1, Difficulty := 1 }

/-- The genesis block produced under `trivHash` at timestamp 0. -/
def genesisTriv : Block :=
  { Index := 0, Timestamp := 0, Transactions := ["Genesis Block"], MerkleRoot := "0000",
    PrevHash := "", Hash := "0000", Nonce := 0, Difficulty := 4 }

/-- A header (difficulty 1) whose candidate record at nonce `n` is
`"10" ++ toString n ++ "1"`; under `selHash` mining succeeds first at nonce 1. -/
def nonceOneBlock : Block :=
  { Index := 1, Timestamp := 0, Transactions := ["t"], MerkleRoot := "",
    PrevHash := "", Hash := "", Nonce := 0, Difficulty := 1 }

/-- A header with a negative difficulty, as a `/mine` request may induce. -/
def negDiffBlock : Block :=
  { Index := 0, Timestamp := 0, Transactions := ["t"], MerkleRoot := "",
    PrevHash := "", Hash := "", Nonce := 0, Difficulty := -1 }

/-- Whether a `/mine` response is the 500 "mining failed" (timeout) path. -/
def isFailedResp : MineResp → Bool
  | .failed _ _ => true
  | _ => false

/-- The block mined from `["tx"]` on top of `genesisTriv` at timestamp 7 and
difficulty 4 under `trivHash` (nonce 0 trivially satisfies the pattern). -/
def minedTriv : Block :=
  { Index := 1, Timestamp := 7, Transactions := ["tx"], MerkleRoot := "0000",
    PrevHash := "0000", Hash := "0000", Nonce := 0, Difficulty := 4 }

/-- The block mined from the whitespace-padded transaction `"  spaced  "` on
top of `genesisTriv` at timestamp 9 and difficulty 0 under `trivHash`. -/
def paddedTxBlock : Block :=
  { Index := 1, Timestamp := 9, Transactions := ["  spaced  "], MerkleRoot := "0000",
    PrevHash := "0000", Hash := "0000", Nonce := 0, Difficulty := 0 }

/-! ## Theorems -/

/-! ### Sanity: the embedded hasher against standard SHA-256 test vectors -/

/-- `sha256hex` agrees with the standard SHA-256 test vector for `"abc"`. -/
theorem sha256hex_abc :
    sha256hex "abc" = "ba7816bf8f01cfea414140de5dae2223b00361a396177a9cb410ff61f20015ad" := by
  decide

/-- `sha256hex` agrees with the standard SHA-256 test vector for `""`. -/
theorem sha256hex_empty :
    sha256hex "" = "e3b0c44298fc1c149afbf4c8996fb92427ae41e4649b934ca495991b7852b855" := by
  decide

/-! ### Merkle lemmas -/

/-- One pairing pass halves the layer, rounding up. -/
theorem pairStep_length (H : String → String) :
    ∀ l : List String, (pairStep H l).length = (l.length + 1) / 2
  | [] => by simp [pairStep]
  | [x] => by simp [pairStep]
  | x :: y :: rest => by
    simp [pairStep, pairStep_length H rest]
    omega

/-- The empty prefix test always succeeds. -/
theorem hasPref_empty (s : String) : hasPref s "" = true := by
  have h : ("" : String).data = [] := by decide
  simp [hasPref, h, List.isPrefixOf]

/-- Any fuel at least the layer length computes the same reduction as fuel
exactly the layer length: the loop strictly shrinks the layer, so such fuel
never runs out and the fuel is irrelevant beyond it. -/
theorem merkleLoopF_norm (H : String → String) :
    ∀ fuel layer, layer.length ≤ fuel →
      merkleLoopF H fuel layer = merkleLoopF H layer.length layer := by
  intro fuel
  induction fuel using Nat.strong_induction_on with
  | _ fuel ih =>
    intro layer hlen
    cases fuel with
    | zero =>
      have h0 : layer = [] := by
        cases layer with
        | nil => rfl
        | cons a t => simp at hlen
      subst h0; rfl
    | succ f =>
      by_cases h1 : 1 < layer.length
      · have hp := pairStep_length H layer
        have hfm : (pairStep H layer).length ≤ f := by omega
        have hL : merkleLoopF H (f + 1) layer = merkleLoopF H f (pairStep H layer) := by
          simp [merkleLoopF, h1]
        obtain ⟨m, hm⟩ : ∃ m, layer.length = m + 2 := ⟨layer.length - 2, by omega⟩
        have hfm2 : (pairStep H layer).length ≤ m + 1 := by omega
        have hR : merkleLoopF H layer.length layer = merkleLoopF H (m + 1) (pairStep H layer) := by
          conv_lhs => rw [hm]
          simp [merkleLoopF, h1]
        rw [hL, hR, ih f (by omega) _ hfm, ih (m + 1) (by omega) _ hfm2]
      · have hL : merkleLoopF H (f + 1) layer = layer := by
          simp [merkleLoopF, h1]
        rw [hL]
        cases layer with
        | nil => rfl
        | cons a t =>
          cases t with
          | nil => rfl
          | cons b t2 => simp at h1

/-! ### Mining-loop lemmas -/

/-- With a non-positive `stopAfterMs` (as every in-repo call site passes 0),
the mining loop can never report a timeout. -/
theorem mineLoopF_ne_timedOut (H : String → String) (b : Block) (pre : String)
    (stopAfterMs : Int) (exceeded : Nat → Bool) (hstop : stopAfterMs ≤ 0) :
    ∀ fuel k st n, mineLoopF H b pre stopAfterMs exceeded fuel k ≠ some (.timedOut st n) := by
  intro fuel
  induction fuel with
  | zero => intro k st n h; simp [mineLoopF] at h
  | succ f ih =>
    intro k st n h
    simp only [mineLoopF] at h
    split at h
    · simp at h
    · split at h
      · rename_i hc
        omega
      · exact ih (k + 1) st n h

/-- Success analysis of the mining loop: a mined result is the input block at
the least satisfying nonce at or after the starting counter `k`, with its
`Hash` set to the candidate hash. -/
theorem mineLoopF_mined_spec (H : String → String) (b : Block) (pre : String)
    (stopAfterMs : Int) (exceeded : Nat → Bool) :
    ∀ fuel k m, mineLoopF H b pre stopAfterMs exceeded fuel k = some (.mined m) →
      ∃ n : Nat, k ≤ n ∧ m = minedBlock H b n ∧
        hasPref (computeHash H { b with Nonce := (n : Int) }) pre = true ∧
        ∀ j : Nat, k ≤ j → j < n →
          hasPref (computeHash H { b with Nonce := (j : Int) }) pre = false := by
  intro fuel
  induction fuel with
  | zero => intro k m h; simp [mineLoopF] at h
  | succ f ih =>
    intro k m h
    simp only [mineLoopF] at h
    split at h
    · rename_i hp
      refine ⟨k, le_refl k, ?_, hp, ?_⟩
      · simp only [Option.some.injEq, MineOutcome.mined.injEq] at h
        exact h.symm
      · intro j hj hjk
        omega
    · rename_i hp
      split at h
      · simp at h
      · obtain ⟨n, hkn, hm, hgood, hmin⟩ := ih (k + 1) m h
        refine ⟨n, by omega, hm, hgood, ?_⟩
        intro j hj hjn
        rcases Nat.eq_or_lt_of_le hj with heq | hlt
        · subst heq
          exact Bool.not_eq_true _ ▸ eq_false_of_ne_true hp
        · exact hmin j hlt hjn

/-! ### `minedBlock` field facts -/

@[simp] theorem minedBlock_Index (H : String → String) (b : Block) (n : Nat) :
    (minedBlock H b n).Index = b.Index := rfl

@[simp] theorem minedBlock_Timestamp (H : String → String) (b : Block) (n : Nat) :
    (minedBlock H b n).Timestamp = b.Timestamp := rfl

@[simp] theorem minedBlock_Transactions (H : String → String) (b : Block) (n : Nat) :
    (minedBlock H b n).Transactions = b.Transactions := rfl

@[simp] theorem minedBlock_MerkleRoot (H : String → String) (b : Block) (n : Nat) :
    (minedBlock H b n).MerkleRoot = b.MerkleRoot := rfl

@[simp] theorem minedBlock_PrevHash (H : String → String) (b : Block) (n : Nat) :
    (minedBlock H b n).PrevHash = b.PrevHash := rfl

@[simp] theorem minedBlock_Difficulty (H : String → String) (b : Block) (n : Nat) :
    (minedBlock H b n).Difficulty = b.Difficulty := rfl

@[simp] theorem minedBlock_Nonce (H : String → String) (b : Block) (n : Nat) :
    (minedBlock H b n).Nonce = (n : Int) := rfl

/-- The stored hash of a mined block is its own recomputed hash: `computeHash`
reads every field except `Hash` and `Transactions`, so setting `Hash` does not
disturb the recomputation. -/
theorem minedBlock_hash (H : String → String) (b : Block) (n : Nat) :
    (minedBlock H b n).Hash = computeHash H (minedBlock H b n) := rfl

/-! ### `mineBlock` lemmas -/

/-- A negative difficulty makes `mineBlock` panic in `strings.Repeat`. -/
theorem mineBlock_neg_diff (H : String → String) (b : Block) (stop : Int)
    (exc : Nat → Bool) (fuel : Nat) (h : b.Difficulty < 0) :
    mineBlock H b stop exc fuel = some (.panicked "strings: negative Repeat count") := by
  simp [mineBlock, stringsRepeat, h]

/-- With difficulty 0 the required pattern is empty, so the very first
candidate (nonce 0) is accepted. -/
theorem mineBlock_zero_diff (H : String → String) (b : Block) (stop : Int)
    (exc : Nat → Bool) (fuel : Nat) (h : b.Difficulty = 0) (hf : 1 ≤ fuel) :
    mineBlock H b stop exc fuel = some (.mined (minedBlock H b 0)) := by
  obtain ⟨f, rfl⟩ : ∃ f, fuel = f + 1 := ⟨fuel - 1, by omega⟩
  have hrep : stringsRepeat "0" b.Difficulty = some "" := by rw [h]; decide
  simp [mineBlock, hrep, mineLoopF, hasPref_empty, minedBlock]

/-- Every call site in the repo passes `stopAfterMs = 0`, and with a
non-positive bound `mineBlock` can never report a timeout. -/
theorem mineBlock_ne_timedOut (H : String → String) (b : Block) (stop : Int)
    (exc : Nat → Bool) (fuel : Nat) (hstop : stop ≤ 0) (st n : Int) :
    mineBlock H b stop exc fuel ≠ some (.timedOut st n) := by
  unfold mineBlock
  cases hrep : stringsRepeat "0" b.Difficulty with
  | none => simp
  | some pre => exact mineLoopF_ne_timedOut H b pre stop exc hstop fuel 0 st n

/-- Success analysis of `mineBlock`: the difficulty was non-negative, and the
result is the input block at the least satisfying nonce, hash recomputable
and matching the `difficulty`-zeros pattern. -/
theorem mineBlock_mined_spec (H : String → String) (b : Block) (stop : Int)
    (exc : Nat → Bool) (fuel : Nat) (m : Block)
    (h : mineBlock H b stop exc fuel = some (.mined m)) :
    0 ≤ b.Difficulty ∧
    ∃ n : Nat, m = minedBlock H b n ∧
      hasPref (computeHash H { b with Nonce := (n : Int) }) (zeroPref b.Difficulty) = true ∧
      ∀ j : Nat, j < n →
        hasPref (computeHash H { b with Nonce := (j : Int) }) (zeroPref b.Difficulty) = false := by
  unfold mineBlock at h
  cases hrep : stringsRepeat "0" b.Difficulty with
  | none => rw [hrep] at h; simp at h
  | some pre =>
    rw [hrep] at h
    have hd : 0 ≤ b.Difficulty := by
      by_contra hneg
      have hlt : b.Difficulty < 0 := by omega
      have : stringsRepeat "0" b.Difficulty = none := by simp [stringsRepeat, hlt]
      rw [this] at hrep
      exact Option.noConfusion hrep
    have hpre : zeroPref b.Difficulty = pre := by simp [zeroPref, hrep]
    obtain ⟨n, _, hm, hgood, hmin⟩ := mineLoopF_mined_spec H b pre stop exc fuel 0 m h
    refine ⟨hd, n, hm, ?_, ?_⟩
    · rw [hpre]; exact hgood
    · intro j hj
      rw [hpre]
      exact hmin j (Nat.zero_le j) hj

/-! ### `addBlock` lemmas -/

/-- `addBlock` can never surface a mining timeout: it hardcodes
`stopAfterMs = 0` in its `mineBlock` call. -/
theorem addBlock_ne_errTimeout (H : String → String) (exc : Nat → Bool) (fuel : Nat)
    (ts : Int) (chain : List Block) (txs : List String) (d st n : Int) (bc : List Block) :
    addBlock H exc fuel ts chain txs d ≠ some (.errTimeout st n, bc) := by
  unfold addBlock
  cases hlast : chain.getLast? with
  | none => simp
  | some prev =>
    simp only []
    intro h
    split at h
    · exact Option.noConfusion h
    next m heq => simp at h
    next st2 n2 heq =>
      exact mineBlock_ne_timedOut H _ 0 exc fuel (le_refl 0) st2 n2 heq
    next msg heq => simp at h

/-- Success analysis of `addBlock`: the chain is extended by exactly the
mined block, which links to the previous last block and carries the given
transactions, timestamp and difficulty, with a valid proof of work. -/
theorem addBlock_ok_spec (H : String → String) (exc : Nat → Bool) (fuel : Nat)
    (ts : Int) (chain : List Block) (txs : List String) (d : Int) (m : Block)
    (bc : List Block) (h : addBlock H exc fuel ts chain txs d = some (.ok m, bc)) :
    bc = chain ++ [m] ∧
    ∃ prev, chain.getLast? = some prev ∧ linked prev m ∧
      m.Hash = computeHash H m ∧ 0 ≤ m.Difficulty ∧
      hasPref m.Hash (zeroPref m.Difficulty) = true ∧
      m.MerkleRoot = computeMerkleRoot H m.Transactions ∧
      m.Transactions = txs ∧ m.Timestamp = ts ∧ m.Difficulty = d := by
  unfold addBlock at h
  cases hlast : chain.getLast? with
  | none => rw [hlast] at h; simp at h
  | some prev =>
    rw [hlast] at h
    simp only [] at h
    split at h
    · exact Option.noConfusion h
    next mm heq =>
      simp only [Option.some.injEq, Prod.mk.injEq, AddBlockRes.ok.injEq] at h
      obtain ⟨hm, hbc⟩ := h
      subst hm
      obtain ⟨hd, n, hmm, hgood, _⟩ := mineBlock_mined_spec H _ 0 exc fuel mm heq
      subst hmm
      refine ⟨hbc.symm, prev, rfl, ?_, minedBlock_hash H _ n, by simpa using hd, ?_, ?_, ?_, ?_, ?_⟩
      · constructor <;> simp
      · simpa using hgood
      · simp
      · simp
      · simp
      · simp
    next st2 n2 heq => simp at h
    next msg heq => simp at h

/-- Chain preservation on the non-success paths of `addBlock`. -/
theorem addBlock_chain_of_not_ok (H : String → String) (exc : Nat → Bool) (fuel : Nat)
    (ts : Int) (chain : List Block) (txs : List String) (d : Int) (r : AddBlockRes)
    (bc : List Block) (h : addBlock H exc fuel ts chain txs d = some (r, bc))
    (hnot : ∀ m, r ≠ .ok m) : bc = chain := by
  unfold addBlock at h
  cases hlast : chain.getLast? with
  | none =>
    rw [hlast] at h
    simp only [Option.some.injEq, Prod.mk.injEq] at h
    exact h.2.symm
  | some prev =>
    rw [hlast] at h
    simp only [] at h
    split at h
    · exact Option.noConfusion h
    next m heq =>
      simp only [Option.some.injEq, Prod.mk.injEq] at h
      exact absurd h.1.symm (hnot m)
    next st2 n2 heq =>
      simp only [Option.some.injEq, Prod.mk.injEq] at h
      exact h.2.symm
    next msg heq =>
      simp only [Option.some.injEq, Prod.mk.injEq] at h
      exact h.2.symm

/-! ### Handler lemmas -/

/-- `handleAddTx` never touches the chain, and appends exactly the submitted
string to the pool when it validates. -/
theorem handleAddTx_spec (s : ChainState) (data : String) (r : AddTxResp)
    (s' : ChainState) (h : handleAddTx s data = (r, s')) :
    s'.blockchain = s.blockchain ∧
    ((goTrimSpace data = "" ∧ r = .badRequest ∧ s' = s) ∨
     (goTrimSpace data ≠ "" ∧ r = .created (s.pendingTransactions ++ [data]) ∧
      s'.pendingTransactions = s.pendingTransactions ++ [data])) := by
  unfold handleAddTx at h
  split at h
  next he =>
    simp only [Prod.mk.injEq] at h
    exact ⟨h.2 ▸ rfl, Or.inl ⟨he, h.1.symm, h.2.symm⟩⟩
  next he =>
    simp only [Prod.mk.injEq] at h
    refine ⟨h.2 ▸ rfl, Or.inr ⟨he, h.1.symm, h.2 ▸ rfl⟩⟩

/-- Complete characterization of one `handleMine` call (sequential model):
either the pool was empty and nothing changed; or a block carrying exactly
the snapshot was mined, appended, and the pool emptied; or the call panicked
(negative difficulty) with the pool left cleared — its transactions lost.
A `failed`/timeout response is impossible. -/
theorem handleMine_spec (H : String → String) (exc : Nat → Bool) (fuel : Nat)
    (ts : Int) (s : ChainState) (d t : Int) (r : MineResp) (s' : ChainState)
    (h : handleMine H exc fuel ts s d t = some (r, s')) :
    (s.pendingTransactions = [] ∧ r = .noPending ∧ s' = s) ∨
    (s.pendingTransactions ≠ [] ∧ ∃ m,
       r = .ok m ∧
       s' = { blockchain := s.blockchain ++ [m], pendingTransactions := [] } ∧
       m.Transactions = s.pendingTransactions ∧
       addBlock H exc fuel ts s.blockchain s.pendingTransactions d =
         some (.ok m, s.blockchain ++ [m])) ∨
    (s.pendingTransactions ≠ [] ∧ ∃ msg,
       r = .panicked msg ∧
       s' = { blockchain := s.blockchain, pendingTransactions := [] }) := by
  unfold handleMine at h
  split at h
  next he =>
    simp only [Option.some.injEq, Prod.mk.injEq] at h
    exact Or.inl ⟨he, h.1.symm, h.2.symm⟩
  next he =>
    simp only [] at h
    split at h
    · exact Option.noConfusion h
    next m bc heq =>
      simp only [Option.some.injEq, Prod.mk.injEq] at h
      obtain ⟨hr, hs'⟩ := h
      obtain ⟨hbc, prev, hlast, hlink, hhash, hd0, hpw, hmr, htxs, hts2, hd2⟩ :=
        addBlock_ok_spec H exc fuel ts s.blockchain s.pendingTransactions d m bc heq
      refine Or.inr (Or.inl ⟨he, m, hr.symm, ?_, htxs, ?_⟩)
      · rw [← hs', hbc]
      · rw [← hbc]; exact heq
    next st2 n2 bc heq =>
      exact absurd heq (addBlock_ne_errTimeout H exc fuel ts s.blockchain
        s.pendingTransactions d st2 n2 bc)
    next msg bc heq =>
      have hbc : bc = s.blockchain := addBlock_chain_of_not_ok H exc fuel ts
        s.blockchain s.pendingTransactions d _ bc heq (by intro m hcon; exact AddBlockRes.noConfusion hcon)
      simp only [Option.some.injEq, Prod.mk.injEq] at h
      refine Or.inr (Or.inr ⟨he, msg, h.1.symm, ?_⟩)
      rw [← h.2, hbc]

/-! ### Genesis lemmas -/

/-- Any block `createGenesisBlock` returns is a valid genesis: index 0, empty
previous hash, and a proof of work at the default difficulty.  (The `err !=
nil` fallback, which would skip the proof of work, is dead code: the call
passes `stopAfterMs = 0`, so `mineBlock` cannot time out.) -/
theorem createGenesisBlock_spec (H : String → String) (ts : Int) (exc : Nat → Bool)
    (fuel : Nat) (g : Block) (h : createGenesisBlock H ts exc fuel = some g) :
    g.Index = 0 ∧ g.PrevHash = "" ∧ blockValid H g := by
  unfold createGenesisBlock at h
  simp only [] at h
  split at h
  next b heq =>
    simp only [Option.some.injEq] at h
    subst h
    obtain ⟨hd, n, hm, hgood, _⟩ := mineBlock_mined_spec H _ 0 exc fuel b heq
    subst hm
    refine ⟨by simp, by simp, minedBlock_hash H _ n, by simpa using hd, ?_, by simp, ?_⟩
    · simpa using hgood
    · intro hx
      simp at hx
  next st n heq =>
    exact absurd heq (mineBlock_ne_timedOut H _ 0 exc fuel (le_refl 0) st n)
  next msg heq => exact Option.noConfusion h
  next heq => exact Option.noConfusion h

/-! ### Chain-invariant lemmas -/

/-- A single valid genesis block satisfies the chain invariant. -/
theorem chainInvariant_singleton (H : String → String) (g : Block)
    (h0 : g.Index = 0) (hp : g.PrevHash = "") (hv : blockValid H g) :
    chainInvariant H [g] := by
  refine ⟨?_, List.chain'_singleton g, ?_⟩
  · intro x hx
    simp only [List.head?_cons, Option.mem_def, Option.some.injEq] at hx
    subst hx
    exact ⟨h0, hp⟩
  · intro b hb
    simp only [List.mem_singleton] at hb
    subst hb
    exact hv

/-- Appending a valid block linked to the last block preserves the chain
invariant. -/
theorem chainInvariant_snoc (H : String → String) (bs : List Block) (m prev : Block)
    (hinv : chainInvariant H bs) (hlast : bs.getLast? = some prev)
    (hlink : linked prev m) (hvalid : blockValid H m) :
    chainInvariant H (bs ++ [m]) := by
  obtain ⟨hhead, hchain, hall⟩ := hinv
  have hne : bs ≠ [] := by
    intro e
    subst e
    simp at hlast
  refine ⟨?_, ?_, ?_⟩
  · intro g hg
    cases bs with
    | nil => exact absurd rfl hne
    | cons a tl =>
      simp only [List.cons_append, List.head?_cons, Option.mem_def,
        Option.some.injEq] at hg
      subst hg
      exact hhead a (by simp)
  · refine List.Chain'.append hchain (List.chain'_singleton m) ?_
    intro x hx y hy
    simp only [List.head?_cons, Option.mem_def, Option.some.injEq] at hy
    rw [hlast] at hx
    simp only [Option.mem_def, Option.some.injEq] at hx
    subst hx
    subst hy
    exact hlink
  · intro b hb
    rcases List.mem_append.mp hb with hb | hb
    · exact hall b hb
    · simp only [List.mem_singleton] at hb
      subst hb
      exact hvalid

/-- The chain invariant holds for every prefix of a chain satisfying it. -/
theorem chainInvariant_take (H : String → String) (bs : List Block) (n : Nat)
    (h : chainInvariant H bs) : chainInvariant H (bs.take n) := by
  obtain ⟨hhead, hchain, hall⟩ := h
  refine ⟨?_, hchain.prefix (List.take_prefix n bs), ?_⟩
  · intro g hg
    cases n with
    | zero => simp at hg
    | succ k =>
      cases bs with
      | nil => simp at hg
      | cons a tl =>
        simp only [List.take_succ_cons, List.head?_cons, Option.mem_def,
          Option.some.injEq] at hg
        subst hg
        exact hhead a (by simp)
  · intro b hb
    exact hall b (List.take_subset n bs hb)

/-- Every reachable state's full chain satisfies invariants 1-5. -/
theorem reach_chainInvariant (H : String → String) (s : ChainState)
    (h : Reach H s) : chainInvariant H s.blockchain := by
  induction h with
  | boot ts exc fuel g hg =>
    obtain ⟨h0, hp, hv⟩ := createGenesisBlock_spec H ts exc fuel g hg
    exact chainInvariant_singleton H g h0 hp hv
  | @submit s data r s' hR heq ih =>
    obtain ⟨hbc, _⟩ := handleAddTx_spec s data r s' heq
    rw [hbc]
    exact ih
  | @mine s exc fuel ts d t r s' hR heq ih =>
    rcases handleMine_spec H exc fuel ts s d t r s' heq with
      ⟨_, _, hs'⟩ | ⟨hne, m, _, hs', htxs, haddb⟩ | ⟨_, msg, _, hs'⟩
    · rw [hs']
      exact ih
    · obtain ⟨hbc, prev, hlast, hlink, hhash, hd0, hpw, hmr, htx2, hts2, hd2⟩ :=
        addBlock_ok_spec H exc fuel ts s.blockchain s.pendingTransactions d m _ haddb
      rw [hs']
      exact chainInvariant_snoc H s.blockchain m prev ih hlast hlink
        ⟨hhash, hd0, hpw, hmr, fun _ => by rw [htxs]; exact hne⟩
    · rw [hs']
      exact ih

/-! ### Further Merkle lemmas (duplicate-last absorption) -/

/-- `stringsRepeat` succeeds exactly on non-negative counts, yielding
`zeroPref`. -/
theorem stringsRepeat_nonneg (d : Int) (h : 0 ≤ d) :
    stringsRepeat "0" d = some (zeroPref d) := by
  have hn : ¬ d < 0 := not_lt.mpr h
  simp [stringsRepeat, zeroPref, hn]

/-- `getLast?` commutes with `map`. -/
theorem getLast?_map_aux (f : String → String) :
    ∀ l : List String, (l.map f).getLast? = l.getLast?.map f
  | [] => rfl
  | [x] => rfl
  | x :: y :: rest => by
    simp only [List.map_cons]
    rw [List.getLast?_cons_cons, List.getLast?_cons_cons]
    have := getLast?_map_aux f (y :: rest)
    simpa using this

/-- Appending a duplicate of the last element to an odd-length layer does not
change the pairing pass: the lone last element was already paired with
itself. -/
theorem pairStep_snoc_last (H : String → String) :
    ∀ L : List String, L.length % 2 = 1 →
      pairStep H (L ++ [L.getLast?.getD ""]) = pairStep H L
  | [], h => by simp at h
  | [x], _ => by simp [pairStep]
  | x :: y :: rest, h => by
    have hr : rest.length % 2 = 1 := by
      simp only [List.length_cons] at h
      omega
    have hrne : rest ≠ [] := by
      intro e
      subst e
      simp at hr
    have hlast : (x :: y :: rest).getLast?.getD "" = rest.getLast?.getD "" := by
      cases rest with
      | nil => exact absurd rfl hrne
      | cons r rs => rw [List.getLast?_cons_cons, List.getLast?_cons_cons]
    calc pairStep H ((x :: y :: rest) ++ [(x :: y :: rest).getLast?.getD ""])
        = H (x ++ y) :: pairStep H (rest ++ [(x :: y :: rest).getLast?.getD ""]) := by
          simp [pairStep]
      _ = H (x ++ y) :: pairStep H (rest ++ [rest.getLast?.getD ""]) := by rw [hlast]
      _ = H (x ++ y) :: pairStep H rest := by rw [pairStep_snoc_last H rest hr]
      _ = pairStep H (x :: y :: rest) := by simp [pairStep]

/-! ## The claims -/

/-- C3: for every chain state reachable by genesis bootstrap followed by any
sequence of submit and mine-and-commit operations, and for every prefix of
that chain, invariants 1-5 of the data model hold: `blocks[0].index = 0`
with empty `prev_hash`; adjacent index/`prev_hash` linkage; every block's
hash equals the recomputed `computeHash` and has at least `difficulty`
leading `'0'` characters; every block's `merkle_root` equals
`computeMerkleRoot transactions`; and every non-genesis block has a
non-empty transaction list. -/
theorem claim_C3_reachable_prefix_invariants (H : String → String) (s : ChainState)
    (h : Reach H s) (n : Nat) : chainInvariant H (s.blockchain.take n) :=
  chainInvariant_take H s.blockchain n (reach_chainInvariant H s h)

/-- Witness for C3: a concrete three-step run (bootstrap, submit `"tx"`,
mine at difficulty 4) under the trivial hasher, checked at prefix length 2. -/
theorem claim_C3_witness :
    chainInvariant trivHash
      ((ChainState.mk [genesisTriv, minedTriv] []).blockchain.take 2) :=
  claim_C3_reachable_prefix_invariants trivHash ⟨[genesisTriv, minedTriv], []⟩
    (Reach.mine clockFalse 1 7 4 0 (.ok minedTriv) ⟨[genesisTriv, minedTriv], []⟩
      (Reach.submit "tx" (.created ["tx"]) ⟨[genesisTriv], ["tx"]⟩
        (Reach.boot 0 clockFalse 1 genesisTriv (by decide))
        (by decide))
      (by decide))
    2

/-- C4: whenever the miner succeeds on a block with non-negative difficulty,
the returned block's hash is the hash recomputed over the returned fields, it
starts with at least `difficulty` zeros, and the returned nonce is the least
non-negative integer whose candidate hash satisfies the pattern (the search
starts at nonce 0 and increments by 1). -/
theorem claim_C4_mineBlock_least_nonce (H : String → String) (b : Block) (stop : Int)
    (exc : Nat → Bool) (fuel : Nat) (m : Block)
    (hdiff : 0 ≤ b.Difficulty)
    (h : mineBlock H b stop exc fuel = some (.mined m)) :
    m.Hash = computeHash H m ∧
    hasPref m.Hash (zeroPref b.Difficulty) = true ∧
    0 ≤ m.Nonce ∧
    ∀ j : Int, 0 ≤ j → j < m.Nonce →
      hasPref (computeHash H { b with Nonce := j }) (zeroPref b.Difficulty) = false := by
  obtain ⟨hd, n, hm, hgood, hmin⟩ := mineBlock_mined_spec H b stop exc fuel m h
  subst hm
  refine ⟨minedBlock_hash H b n, by simpa using hgood, by simp, ?_⟩
  intro j hj0 hjn
  simp only [minedBlock_Nonce] at hjn
  have hjn' : j.toNat < n := by omega
  have hmj := hmin j.toNat hjn'
  have hjq : ((j.toNat : Nat) : Int) = j := Int.toNat_of_nonneg hj0
  rw [hjq] at hmj
  exact hmj

/-- Witness for C4: under the selective hasher `selHash`, the header
`nonceOneBlock` (difficulty 1) fails at nonce 0 and is mined at nonce 1. -/
theorem claim_C4_witness :
    0 ≤ nonceOneBlock.Difficulty ∧
    ((minedBlock selHash nonceOneBlock 1).Hash =
        computeHash selHash (minedBlock selHash nonceOneBlock 1) ∧
     hasPref (minedBlock selHash nonceOneBlock 1).Hash
        (zeroPref nonceOneBlock.Difficulty) = true ∧
     0 ≤ (minedBlock selHash nonceOneBlock 1).Nonce ∧
     ∀ j : Int, 0 ≤ j → j < (minedBlock selHash nonceOneBlock 1).Nonce →
       hasPref (computeHash selHash { nonceOneBlock with Nonce := j })
         (zeroPref nonceOneBlock.Difficulty) = false) :=
  ⟨by decide,
   claim_C4_mineBlock_least_nonce selHash nonceOneBlock 0 clockFalse 2
     (minedBlock selHash nonceOneBlock 1) (by decide) (by decide)⟩

/-- C5: the Merkle builder computes the root by the specified reduction: the
empty sequence yields `H ""`; a singleton yields its leaf hash; each pairing
pass combines adjacent elements left-to-right as `H (left ++ right)` with an
odd layer's last element paired with itself; the layers are reduced until one
digest remains; in particular `["a","b","c"]` reduces to
`H (H (H a ++ H b) ++ H (H c ++ H c))`. -/
theorem claim_C5_merkle_reduction (H : String → String) :
    computeMerkleRoot H [] = H "" ∧
    (∀ t, computeMerkleRoot H [t] = H t) ∧
    (∀ a b c, computeMerkleRoot H [a, b, c] = H (H (H a ++ H b) ++ H (H c ++ H c))) ∧
    (∀ l r rest, pairStep H (l :: r :: rest) = H (l ++ r) :: pairStep H rest) ∧
    (∀ l, pairStep H [l] = [H (l ++ l)]) ∧
    (∀ x y rest, computeMerkleRoot H (x :: y :: rest) =
       (merkleLoopF H (rest.length + 1)
          (pairStep H ((x :: y :: rest).map H))).headD "") := by
  refine ⟨by simp [computeMerkleRoot], ?_, ?_, fun l r rest => rfl, fun l => rfl, ?_⟩
  · intro t
    simp [computeMerkleRoot, merkleLoopF]
  · intro a b c
    simp [computeMerkleRoot, merkleLoopF, pairStep]
  · intro x y rest
    simp only [computeMerkleRoot, List.map_cons, List.length_cons, List.length_map]
    rw [if_neg (by simp)]
    rw [merkleLoopF]
    rw [if_pos (by simp)]

/-- C7 counterexample: the program has no persistence.  With no durable store
(`none`), startup does not write the genesis block as the sole entry of a new
store (the store stays `none`); with an existing store, startup does not load
it — it mines a fresh genesis instead — and never writes back. -/
theorem claim_C7_counterexample :
    mainStartup trivHash 0 clockFalse 1 none = some ([genesisTriv], none) ∧
    (none : Option (List Block)) ≠ some [genesisTriv] ∧
    mainStartup trivHash 0 clockFalse 1 (some [minedTriv]) =
      some ([genesisTriv], some [minedTriv]) ∧
    [genesisTriv] ≠ [minedTriv] := by
  refine ⟨by decide, by decide, by decide, by decide⟩

/-- C7 amended: chain state is in-memory only.  Startup unconditionally
constructs and mines a fresh genesis chain `[g]`, ignoring any existing
durable store, and neither startup nor any later commit reads or writes the
store — the store component of the world passes through every operation
unchanged. -/
theorem claim_C7_amended (H : String → String) (ts : Int) (exc : Nat → Bool)
    (fuel : Nat) (store : Option (List Block)) :
    mainStartup H ts exc fuel store =
      (createGenesisBlock H ts exc fuel).map (fun g => ([g], store)) := by
  unfold mainStartup
  cases createGenesisBlock H ts exc fuel <;> rfl

/-- C9 counterexample: on a block with difficulty `-1` the miner does not
return immediately with nonce 0 — it panics in `strings.Repeat` before
hashing a single candidate. -/
theorem claim_C9_counterexample :
    mineBlock sha256hex negDiffBlock 0 clockFalse 5 =
      some (.panicked "strings: negative Repeat count") ∧
    mineBlock sha256hex negDiffBlock 0 clockFalse 5 ≠
      some (.mined (minedBlock sha256hex negDiffBlock 0)) := by
  exact ⟨by decide, by decide⟩

/-- C9 amended: the mine interface passes any requested difficulty through
unvalidated; for difficulty exactly 0 the required pattern is empty, so the
miner returns immediately at nonce 0 with hash `computeHash` of that
candidate; for a negative difficulty the miner panics in `strings.Repeat`
instead of returning a block. -/
theorem claim_C9_amended :
    (∀ (H : String → String) (b : Block) (stop : Int) (exc : Nat → Bool) (fuel : Nat),
       b.Difficulty = 0 → 1 ≤ fuel →
       mineBlock H b stop exc fuel = some (.mined (minedBlock H b 0))) ∧
    (∀ (H : String → String) (b : Block) (stop : Int) (exc : Nat → Bool) (fuel : Nat),
       b.Difficulty < 0 →
       mineBlock H b stop exc fuel = some (.panicked "strings: negative Repeat count")) :=
  ⟨fun H b stop exc fuel h hf => mineBlock_zero_diff H b stop exc fuel h hf,
   fun H b stop exc fuel h => mineBlock_neg_diff H b stop exc fuel h⟩

/-- Witness for C9: difficulty 0 mines `junkGenesis` at nonce 0; difficulty
`-1` panics. -/
theorem claim_C9_witness :
    junkGenesis.Difficulty = 0 ∧ (1 : Nat) ≤ 1 ∧
    mineBlock trivHash junkGenesis 0 clockFalse 1 =
      some (.mined (minedBlock trivHash junkGenesis 0)) ∧
    negDiffBlock.Difficulty < 0 ∧
    mineBlock trivHash negDiffBlock 0 clockFalse 1 =
      some (.panicked "strings: negative Repeat count") :=
  ⟨by decide, by decide,
   claim_C9_amended.1 trivHash junkGenesis 0 clockFalse 1 (by decide) (by decide),
   by decide,
   claim_C9_amended.2 trivHash negDiffBlock 0 clockFalse 1 (by decide)⟩

/-- C1 counterexample: a `/mine` request supplying the positive timeout 5 ms,
on a run whose clock (`clockTrue`) reports the bound exceeded at every check —
in particular after the failing candidate at nonce 0 — does not fail with
MiningTimeout: the search continues past the exceeded bound and returns the
block mined at nonce 1.  The parsed `timeout_ms` is not threaded into the
mining call (`addBlock` hardcodes `stopAfterMs = 0`). -/
theorem claim_C1_counterexample :
    0 < (5 : Int) ∧ clockTrue 0 = true ∧ minedTx1.Nonce = 1 ∧
    handleMine sha256hex clockTrue 2 3
      { blockchain := [junkGenesis], pendingTransactions := ["tx1"] } 1 5 =
      some (.ok minedTx1,
            { blockchain := [junkGenesis, minedTx1], pendingTransactions := [] }) := by
  exact ⟨by decide, rfl, by decide, by decide⟩

/-- C1 amended: the timeout accepted at the mine interface is ignored —
`handleMine` parses `timeout_ms` but calls `addBlock`, which invokes
`mineBlock` with `stopAfterMs = 0`, so no `/mine` call ever produces the
MiningTimeout failure; only `mineBlock` itself, when invoked with a positive
`stopAfterMs`, times out once the clock exceeds the bound, reporting the
post-increment nonce counter (one past the last nonce attempted). -/
theorem claim_C1_amended :
    (∀ (H : String → String) (exc : Nat → Bool) (fuel : Nat) (ts : Int)
       (s : ChainState) (d t : Int),
       Option.all (fun p => !isFailedResp p.1) (handleMine H exc fuel ts s d t) = true) ∧
    (∀ (H : String → String) (b : Block) (stop : Int) (exc : Nat → Bool) (fuel : Nat),
       0 < stop → 0 ≤ b.Difficulty → exc 0 = true → 1 ≤ fuel →
       hasPref (computeHash H { b with Nonce := 0 }) (zeroPref b.Difficulty) = false →
       mineBlock H b stop exc fuel = some (.timedOut stop 1)) := by
  constructor
  · intro H exc fuel ts s d t
    cases h : handleMine H exc fuel ts s d t with
    | none => rfl
    | some p =>
      obtain ⟨r, s'⟩ := p
      rcases handleMine_spec H exc fuel ts s d t r s' h with
        ⟨_, hr, _⟩ | ⟨_, m, hr, _⟩ | ⟨_, msg, hr, _⟩ <;>
        subst hr <;> rfl
  · intro H b stop exc fuel hstop hd hexc hf hfail
    obtain ⟨f, rfl⟩ : ∃ f, fuel = f + 1 := ⟨fuel - 1, by omega⟩
    rw [mineBlock, stringsRepeat_nonneg b.Difficulty hd]
    simp only [mineLoopF]
    rw [if_neg (by simp [show ((0 : Nat) : Int) = (0 : Int) from rfl]; exact hfail)]
    rw [if_pos ⟨hstop, hexc⟩]
    norm_num

/-- Witness for C1: under `hashX` (no digest has a leading zero) a direct
`mineBlock` call with `stopAfterMs = 5` and an exceeded clock times out at
once, reporting nonce counter 1. -/
theorem claim_C1_witness :
    0 < (5 : Int) ∧ 0 ≤ nonceOneBlock.Difficulty ∧ clockTrue 0 = true ∧
    (1 : Nat) ≤ 3 ∧
    hasPref (computeHash hashX { nonceOneBlock with Nonce := 0 })
      (zeroPref nonceOneBlock.Difficulty) = false ∧
    mineBlock hashX nonceOneBlock 5 clockTrue 3 = some (.timedOut 5 1) :=
  ⟨by decide, by decide, rfl, by decide, by decide,
   claim_C1_amended.2 hashX nonceOneBlock 5 clockTrue 3 (by decide) (by decide)
     rfl (by decide) (by decide)⟩

/-- C2 counterexample: a `/mine` call supplying the positive timeout 7 ms on
a run whose clock has exceeded the bound at every check — the scenario the
claim says must fail with MiningTimeout and restore the pool — instead
consumes the snapshot: the pool was `["tx2"]` before the call and `[]` after
it, the transactions having been committed into the mined block. -/
theorem claim_C2_counterexample :
    0 < (7 : Int) ∧ clockTrue 0 = true ∧
    ChainState.pendingTransactions
      { blockchain := [junkGenesis], pendingTransactions := ["tx2"] } = ["tx2"] ∧
    handleMine sha256hex clockTrue 2 2
      { blockchain := [junkGenesis], pendingTransactions := ["tx2"] } 1 7 =
      some (.ok minedTx2,
            { blockchain := [junkGenesis, minedTx2], pendingTransactions := [] }) ∧
    ([] : List String) ≠ ["tx2"] := by
  exact ⟨by decide, rfl, rfl, by decide, by decide⟩

/-- C2 amended: no mine call fails with MiningTimeout (the timeout is never
threaded into the mining call), so the restoration branch is dead code for
timeouts.  What a completed mine call does instead: with an empty pool it
reports NothingToMine and changes nothing; on success it empties the pool
into the committed block (the pool after the call is `[]`, not the pool
before it); and on a panic (negative difficulty) the pool is left cleared —
those transactions are lost, not restored. -/
theorem claim_C2_amended (H : String → String) (exc : Nat → Bool) (fuel : Nat)
    (ts : Int) (s : ChainState) (d t : Int) (r : MineResp) (s' : ChainState)
    (h : handleMine H exc fuel ts s d t = some (r, s')) :
    (∀ st n, r ≠ .failed st n) ∧
    ((s.pendingTransactions = [] ∧ r = .noPending ∧ s' = s) ∨
     (∃ m, r = .ok m ∧ m.Transactions = s.pendingTransactions ∧
        s' = { blockchain := s.blockchain ++ [m], pendingTransactions := [] }) ∨
     (∃ msg, r = .panicked msg ∧
        s' = { blockchain := s.blockchain, pendingTransactions := [] })) := by
  rcases handleMine_spec H exc fuel ts s d t r s' h with
    ⟨hp, hr, hs'⟩ | ⟨hne, m, hr, hs', htxs, haddb⟩ | ⟨hne, msg, hr, hs'⟩
  · exact ⟨by subst hr; intro st n hcon; exact MineResp.noConfusion hcon,
      Or.inl ⟨hp, hr, hs'⟩⟩
  · exact ⟨by subst hr; intro st n hcon; exact MineResp.noConfusion hcon,
      Or.inr (Or.inl ⟨m, hr, htxs, hs'⟩)⟩
  · exact ⟨by subst hr; intro st n hcon; exact MineResp.noConfusion hcon,
      Or.inr (Or.inr ⟨msg, hr, hs'⟩)⟩

/-- Witness for C2: the concrete successful difficulty-4 mine under
`trivHash` — never a `failed` response, pool consumed into the block. -/
theorem claim_C2_witness :
    (∀ st n, MineResp.ok minedTriv ≠ .failed st n) ∧
    (((ChainState.mk [genesisTriv] ["tx"]).pendingTransactions = [] ∧
        MineResp.ok minedTriv = .noPending ∧
        ChainState.mk [genesisTriv, minedTriv] [] = ChainState.mk [genesisTriv] ["tx"]) ∨
     (∃ m, MineResp.ok minedTriv = .ok m ∧
        m.Transactions = (ChainState.mk [genesisTriv] ["tx"]).pendingTransactions ∧
        ChainState.mk [genesisTriv, minedTriv] [] =
          { blockchain := (ChainState.mk [genesisTriv] ["tx"]).blockchain ++ [m],
            pendingTransactions := [] }) ∨
     (∃ msg, MineResp.ok minedTriv = .panicked msg ∧
        ChainState.mk [genesisTriv, minedTriv] [] =
          { blockchain := (ChainState.mk [genesisTriv] ["tx"]).blockchain,
            pendingTransactions := [] })) :=
  claim_C2_amended trivHash clockFalse 1 7 ⟨[genesisTriv], ["tx"]⟩ 4 0
    (.ok minedTriv) ⟨[genesisTriv, minedTriv], []⟩ (by decide)

/-- C6 counterexample: order-sensitivity as stated fails on a palindromic
sequence of length 2 — reversing `["a","a"]` leaves it unchanged, so the
Merkle root under SHA-256 is unchanged too, contradicting "reversing `T`
changes the root unless `T` has length 1". -/
theorem claim_C6_counterexample :
    (["a", "a"] : List String).length > 1 ∧
    computeMerkleRoot sha256hex ((["a", "a"] : List String).reverse) =
      computeMerkleRoot sha256hex ["a", "a"] := by
  refine ⟨by decide, ?_⟩
  rw [show (["a", "a"] : List String).reverse = ["a", "a"] from by decide]

/-- C6 amended: the Merkle builder is deterministic (a pure function of the
sequence).  Reversal changes the root only for sequences that are not
palindromes and do not collide under the hasher: for any `T` with
`T.reverse = T` the root is unchanged, while for the non-palindromic
`["a","b"]` the root under SHA-256 does change. -/
theorem claim_C6_amended :
    (∀ (H : String → String) (T1 T2 : List String), T1 = T2 →
       computeMerkleRoot H T1 = computeMerkleRoot H T2) ∧
    (∀ (H : String → String) (T : List String), T.reverse = T →
       computeMerkleRoot H T.reverse = computeMerkleRoot H T) ∧
    computeMerkleRoot sha256hex ["b", "a"] ≠ computeMerkleRoot sha256hex ["a", "b"] := by
  refine ⟨fun H T1 T2 h => by rw [h], fun H T h => by rw [h], ?_⟩
  decide

/-- Witness for C6: the palindrome `["x","x"]` applied through the amended
theorem. -/
theorem claim_C6_witness :
    (["x", "x"] : List String).reverse = ["x", "x"] ∧
    computeMerkleRoot idHash ((["x", "x"] : List String).reverse) =
      computeMerkleRoot idHash ["x", "x"] :=
  ⟨by decide, claim_C6_amended.2.1 idHash ["x", "x"] (by decide)⟩

/-- C8: appending a duplicate of the last element of an odd-length (at least
3) transaction sequence leaves the Merkle root unchanged — the duplicate-last
pairing rule makes the root non-injective, so the two distinct transaction
lists share a `merkle_root`. -/
theorem claim_C8_merkle_duplicate_last (H : String → String) (T : List String)
    (hodd : T.length % 2 = 1) (hge : 3 ≤ T.length) :
    computeMerkleRoot H (T ++ [T.getLast?.getD ""]) = computeMerkleRoot H T ∧
    T ++ [T.getLast?.getD ""] ≠ T := by
  constructor
  · have hTne : T ≠ [] := by
      intro e
      subst e
      simp at hge
    have hT'ne : T ++ [T.getLast?.getD ""] ≠ [] := by simp
    obtain ⟨k, hk⟩ : ∃ k, T.length = k + 3 := ⟨T.length - 3, by omega⟩
    have hmapLast : (T.map H).getLast?.getD "" = H (T.getLast?.getD "") := by
      obtain ⟨t, ht⟩ : ∃ t, T.getLast? = some t := by
        cases hq : T.getLast? with
        | none => exact absurd (List.getLast?_eq_none_iff.mp hq) hTne
        | some t => exact ⟨t, rfl⟩
      rw [getLast?_map_aux H T, ht]
      rfl
    have hL' : (T ++ [T.getLast?.getD ""]).map H = T.map H ++ [(T.map H).getLast?.getD ""] := by
      rw [List.map_append, hmapLast]
      rfl
    have hLlen : (T.map H).length = k + 3 := by simp [hk]
    have hLodd : (T.map H).length % 2 = 1 := by rw [List.length_map]; exact hodd
    have hpair := pairStep_snoc_last H (T.map H) hLodd
    have hplen := pairStep_length H (T.map H)
    rw [computeMerkleRoot, computeMerkleRoot, if_neg hT'ne, if_neg hTne, hL']
    have hlen' : (T.map H ++ [(T.map H).getLast?.getD ""]).length = k + 4 := by
      simp [hLlen]
    rw [hlen', hLlen]
    rw [merkleLoopF, if_pos (by rw [hlen']; omega), hpair]
    conv_rhs => rw [merkleLoopF, if_pos (by rw [hLlen]; omega)]
    rw [merkleLoopF_norm H (k + 3) (pairStep H (T.map H)) (by omega),
        merkleLoopF_norm H (k + 2) (pairStep H (T.map H)) (by omega)]
  · intro e
    have := congrArg List.length e
    simp at this

/-- Witness for C8: `["a","b","c"]` under the identity hasher. -/
theorem claim_C8_witness :
    computeMerkleRoot idHash
        (["a", "b", "c"] ++ [(["a", "b", "c"] : List String).getLast?.getD ""]) =
      computeMerkleRoot idHash ["a", "b", "c"] ∧
    ["a", "b", "c"] ++ [(["a", "b", "c"] : List String).getLast?.getD ""] ≠
      ["a", "b", "c"] :=
  claim_C8_merkle_duplicate_last idHash ["a", "b", "c"] (by decide) (by decide)

/-- C10: a submitted transaction that is non-empty after trimming is stored
verbatim — including leading and trailing whitespace — in the pending pool
(trimming is applied only to the validation check), and a subsequent
successful mine carries the exact original strings into the block. -/
theorem claim_C10_submit_verbatim (H : String → String) (exc : Nat → Bool)
    (fuel : Nat) (ts : Int) (s : ChainState) (d t : Int) (data : String)
    (hval : goTrimSpace data ≠ "") :
    (handleAddTx s data).2.pendingTransactions = s.pendingTransactions ++ [data] ∧
    (handleAddTx s data).1 = .created (s.pendingTransactions ++ [data]) ∧
    ∀ b s', handleMine H exc fuel ts (handleAddTx s data).2 d t = some (.ok b, s') →
      b.Transactions = s.pendingTransactions ++ [data] := by
  have hsnd : (handleAddTx s data).2 =
      { s with pendingTransactions := s.pendingTransactions ++ [data] } := by
    simp [handleAddTx, hval]
  have hfst : (handleAddTx s data).1 = .created (s.pendingTransactions ++ [data]) := by
    simp [handleAddTx, hval]
  refine ⟨by rw [hsnd], hfst, ?_⟩
  intro b s' h
  rcases handleMine_spec H exc fuel ts (handleAddTx s data).2 d t (.ok b) s' h with
    ⟨_, hr, _⟩ | ⟨_, m, hr, _, htxs, _⟩ | ⟨_, msg, hr, _⟩
  · exact absurd hr (by intro hcon; exact MineResp.noConfusion hcon)
  · have hbm : b = m := by
      injection hr
    subst hbm
    rw [htxs, hsnd]
  · exact absurd hr (by intro hcon; exact MineResp.noConfusion hcon)

/-- Witness for C10: submitting `"  spaced  "` (whitespace kept) and mining
it at difficulty 0 under `trivHash`. -/
theorem claim_C10_witness :
    goTrimSpace "  spaced  " ≠ "" ∧
    ((handleAddTx ⟨[genesisTriv], []⟩ "  spaced  ").2.pendingTransactions =
        [] ++ ["  spaced  "] ∧
     (handleAddTx ⟨[genesisTriv], []⟩ "  spaced  ").1 =
        .created ([] ++ ["  spaced  "]) ∧
     ∀ b s', handleMine trivHash clockFalse 1 9
         (handleAddTx ⟨[genesisTriv], []⟩ "  spaced  ").2 0 0 = some (.ok b, s') →
       b.Transactions = [] ++ ["  spaced  "]) :=
  ⟨by decide,
   claim_C10_submit_verbatim trivHash clockFalse 1 9 ⟨[genesisTriv], []⟩ 0 0
     "  spaced  " (by decide)⟩

end MFB
